import Mathlib

/-!  A shallow embedding of the infix sample's breadth-first program
enumeration harness: the lazy `bfs::Result` stream and the `bfs::CatString`
rope from `bfs.h`, the `progspace` generator and renderer from
`infix_test.cc`, and the `bfs_test` driver's oracle logic from `main` in
`infix_test.cc`.  -/

namespace bfs

/-- Model of `bfs::Result<T>` (bfs.h:26-165): a stream that is either empty
or a cell holding one realized value plus a deferred continuation producing
the rest of the stream. -/
inductive Result (T : Type) where
  | empty : Result T
  | cell (value : T) (next : Unit → Result T) : Result T

namespace Result

variable {T U : Type}

/-- Model of the one-element constructor `Result(T value)` (bfs.h:47-52). -/
def single (value : T) : Result T := .cell value (fun _ => .empty)

/-- Model of `explicit operator bool` (bfs.h:61-64): at least one element is
available. -/
def nonEmpty : Result T → Bool
  | .empty => false
  | .cell _ _ => true

/-- Model of `Result::map` (bfs.h:105-119). -/
def map : Result T → (T → U) → Result U
  | .empty, _ => .empty
  | .cell v next, fn => .cell (fn v) (fun _ => (next ()).map fn)

/-- Model of `Result::concat` with a deferred right-hand side
(bfs.h:126-137). -/
def concatF : Result T → (Unit → Result T) → Result T
  | .empty, rhs_fn => rhs_fn ()
  | .cell v next, rhs_fn => .cell v (fun _ => (next ()).concatF rhs_fn)

/-- Model of `Result::concat` on an already-built stream (bfs.h:121-124),
which defers to the deferred-continuation overload. -/
def concat (r : Result T) (rhs : Result T) : Result T :=
  r.concatF (fun _ => rhs)

/-- Model of `Result::flat_map` (bfs.h:139-164): scan input elements,
forcing each and applying `fn`, until a non-empty sub-stream appears; yield
it, deferring `flat_map` of the input past that element.  The C++ loop
advances `current` past the element whose image is taken as the head, which
is the `next ()` in both arms below. -/
def flatMap : Result T → (T → Result U) → Result U
  | .empty, _ => .empty
  | .cell v next, fn =>
    match fn v with
    | .empty => (next ()).flatMap fn
    | .cell u nx => (Result.cell u nx).concatF (fun _ => (next ()).flatMap fn)

/-- One full forward traversal of a stream (the `begin()`/`end()` iteration
of bfs.h:69-103), as the list of values produced in order. -/
def toList : Result T → List T
  | .empty => []
  | .cell v next => v :: (next ()).toList

theorem toList_single (v : T) : (single v).toList = [v] := rfl

theorem toList_concatF (r : Result T) (rhs_fn : Unit → Result T) :
    (r.concatF rhs_fn).toList = r.toList ++ (rhs_fn ()).toList := by
  induction r with
  | empty => simp [concatF, toList]
  | cell v next ih => simp [concatF, toList, ih]

theorem toList_concat (r rhs : Result T) :
    (r.concat rhs).toList = r.toList ++ rhs.toList := by
  simp [concat, toList_concatF]

theorem toList_map (r : Result T) (fn : T → U) :
    (r.map fn).toList = r.toList.map fn := by
  induction r with
  | empty => simp [map, toList]
  | cell v next ih => simp [map, toList, ih]

theorem toList_flatMap (r : Result T) (fn : T → Result U) :
    (r.flatMap fn).toList = r.toList.flatMap (fun t => (fn t).toList) := by
  induction r with
  | empty => simp [flatMap, toList]
  | cell v next ih =>
    rw [flatMap]
    cases h : fn v with
    | empty =>
      simp only [toList, List.flatMap_cons, h, ih]
      rfl
    | cell u nx =>
      rw [toList_concatF]
      simp only [toList, List.flatMap_cons, h, ih]

end Result

/-- Model of `bfs::CatString` (bfs.h:167-194): a leaf string (either a
`string_view` or a shared owned `std::string`) or the concatenation of two
ropes. -/
inductive CatString where
  | view (s : String)
  | owned (s : String)
  | node (lhs rhs : CatString)

namespace CatString

/-- Model of `CatString::concat` (bfs.h:181-184): O(1) construction of a new
internal node. -/
def concat (a b : CatString) : CatString := .node a b

/-- Number of variant nodes in a rope; the measure for the explicit-stack
traversal below. -/
def size : CatString → Nat
  | .view _ => 1
  | .owned _ => 1
  | .node l r => l.size + r.size + 1

end CatString

/-- Model of `operator<<(std::ostream&, const CatString&)` (bfs.h:196-219):
an explicit stack-based depth-first traversal appending leaf strings in
order.  A `node` pushes its second then its first component, so the first is
processed next. -/
def catStringWriteLoop (stack : List CatString) (out : String) : String :=
  match stack with
  | [] => out
  | .view s :: rest => catStringWriteLoop rest (out ++ s)
  | .owned s :: rest => catStringWriteLoop rest (out ++ s)
  | .node l r :: rest => catStringWriteLoop (l :: r :: rest) out
termination_by (stack.map CatString.size).sum
decreasing_by
  all_goals simp [CatString.size]
  all_goals omega

namespace CatString

/-- Model of `CatString::str` (bfs.h:186-191): materialize a rope to a flat
string via the stack-based stream insertion. -/
def str (c : CatString) : String := catStringWriteLoop [c] ""

/-- Recursive reference materialization of a rope, used to reason about the
stack-based traversal. -/
def flatten : CatString → String
  | .view s => s
  | .owned s => s
  | .node l r => l.flatten ++ r.flatten

end CatString

/-- Reference materialization of a whole stack of ropes, in traversal
order. -/
def flattenAll : List CatString → String
  | [] => ""
  | c :: rest => c.flatten ++ flattenAll rest

theorem string_append_empty (a : String) : a ++ "" = a := by
  cases a
  show String.mk _ = String.mk _
  simp [String.append]

theorem string_empty_append (a : String) : "" ++ a = a := by
  cases a
  show String.mk _ = String.mk _
  simp [String.append]

theorem string_append_assoc (a b c : String) : a ++ b ++ c = a ++ (b ++ c) := by
  cases a; cases b; cases c
  show String.mk _ = String.mk _
  simp [String.append]

theorem catStringWriteLoop_eq (stack : List CatString) (out : String) :
    catStringWriteLoop stack out = out ++ flattenAll stack := by
  match stack with
  | [] => simp [catStringWriteLoop, flattenAll, string_append_empty]
  | .view s :: rest =>
    rw [catStringWriteLoop, catStringWriteLoop_eq rest (out ++ s)]
    simp [flattenAll, CatString.flatten, string_append_assoc]
  | .owned s :: rest =>
    rw [catStringWriteLoop, catStringWriteLoop_eq rest (out ++ s)]
    simp [flattenAll, CatString.flatten, string_append_assoc]
  | .node l r :: rest =>
    rw [catStringWriteLoop, catStringWriteLoop_eq (l :: r :: rest) out]
    simp [flattenAll, CatString.flatten, string_append_assoc]
termination_by (stack.map CatString.size).sum
decreasing_by
  all_goals simp [CatString.size]
  all_goals omega

/-- Materialization agrees with the recursive reference flattening. -/
theorem catString_str_eq_flatten (c : CatString) : c.str = c.flatten := by
  rw [CatString.str, catStringWriteLoop_eq, flattenAll, flattenAll,
    string_append_empty, string_empty_append]

end bfs

namespace progspace

open bfs

mutual

/-- The infix expression AST shapes the `progspace` generator and renderer
operate on (the payload under an `Expression` wrapper node; the wrapper
always has exactly one child and is dropped by this embedding).  Literal
nodes carry their lexical text (their trieste location); the binary
operators generated by `valid_expression` and used in the renderer tests
always carry their canonical operator text as location ("+", "-", "*", "/",
"."), which this embedding fixes.  `Ref` wraps an `Ident` carrying the
referenced name.  Tuple and Append have a list of children, represented by
the mutually inductive `ExprList`. -/
inductive Expr where
  | lit (text : String) : Expr
  | ref (name : String) : Expr
  | tuple (children : ExprList) : Expr
  | append (children : ExprList) : Expr
  | add (lhs rhs : Expr) : Expr
  | sub (lhs rhs : Expr) : Expr
  | mul (lhs rhs : Expr) : Expr
  | div (lhs rhs : Expr) : Expr
  | tupleIdx (lhs rhs : Expr) : Expr

/-- Child sequence of a Tuple or Append node. -/
inductive ExprList where
  | nil : ExprList
  | cons (head : Expr) (tail : ExprList) : ExprList

end

/-- Number of children of a Tuple/Append node (`expression->size()`). -/
def ExprList.length : ExprList → Nat
  | .nil => 0
  | .cons _ tail => tail.length + 1

/-- Model of an `Assign` node: `Assign << (Ident ^ name) << expression`. -/
structure AssignT where
  name : String
  value : Expr

/-- Model of a `Calculation` node: its ordered `Assign` children. -/
abbrev Calculation := List AssignT

/-- Model of `progspace::Env = std::set<std::string>`
(infix_test.cc:72): a `std::set` is embedded as the sorted list of its
elements, which is the order its iterators produce. -/
abbrev Env := List String

/-- Elaboration of the depth-0 `Reference` enumeration loop
(infix_test.cc:81-89): for each name in the scope, concatenate one
deferred single-element stream holding `Expression << (Ref << (Ident ^
name))`. -/
def ref_stream (env : Env) : Result Expr :=
  env.foldl (fun acc name => acc.concatF (fun _ => Result.single (.ref name)))
    Result.empty

/-- Model of `progspace::valid_expression` (infix_test.cc:75-126).  Depth 0
yields the literal 0, the literal 1, one reference per scope name, an empty
Tuple and an empty Append, in that order.  At depth d+1, for each `lhs`
from the depth-d stream it yields a unary Tuple and Append of `lhs`, then
for each `rhs` from a fresh depth-d traversal the seven binary
combinations, in the fixed source order.  (The C++ clones nodes before
reuse; clones are identity in this pure embedding.) -/
def valid_expression (env : Env) (depth : Nat) : Result Expr :=
  match depth with
  | 0 =>
    ((((Result.single (Expr.lit "0")).concatF
      (fun _ => Result.single (Expr.lit "1"))).concatF
      (fun _ => ref_stream env)).concatF
      (fun _ => Result.single (Expr.tuple ExprList.nil))).concatF
      (fun _ => Result.single (Expr.append ExprList.nil))
  | d + 1 =>
    let sub_expr := valid_expression env d
    sub_expr.flatMap (fun lhs =>
      let unary_tuple := Result.single (Expr.tuple (ExprList.cons lhs ExprList.nil))
      let unary_append := Result.single (Expr.append (ExprList.cons lhs ExprList.nil))
      (unary_tuple.concat unary_append).concatF (fun _ =>
        sub_expr.flatMap (fun rhs =>
          let both := ExprList.cons lhs (ExprList.cons rhs ExprList.nil)
          ((((((Result.single (Expr.add lhs rhs)).concat
            (Result.single (Expr.sub lhs rhs))).concat
            (Result.single (Expr.mul lhs rhs))).concat
            (Result.single (Expr.div lhs rhs))).concat
            (Result.single (Expr.tuple both))).concat
            (Result.single (Expr.append both))).concat
            (Result.single (Expr.tupleIdx lhs rhs)))))

/-- Model of `progspace::valid_assignment` (infix_test.cc:128-134). -/
def valid_assignment (env : Env) (name : String) (depth : Nat) :
    Result AssignT :=
  (valid_expression env depth).flatMap
    (fun value => Result.single ⟨name, value⟩)

/-- The fixed pool of assignment names (infix_test.cc:139). -/
def valid_names : List String := ["foo", "bar", "ping", "bnorg"]

/-- The `for (int i = 0; i < op_count; ++i)` loop of
`progspace::valid_calculation` (infix_test.cc:141-153), one iteration per
pool name: each already-built (Calculation, Env) pair is extended by every
assignment of the next name, the Env component being passed through
unchanged, exactly as in the source. -/
def calc_loop (depth : Nat) (assigns : Result (Calculation × Env)) :
    List String → Result (Calculation × Env)
  | [] => assigns
  | name :: rest =>
    calc_loop depth
      (assigns.flatMap (fun pair =>
        (valid_assignment pair.2 name depth).map
          (fun assign => (pair.1 ++ [assign], pair.2))))
      rest

/-- Model of `progspace::valid_calculation` (infix_test.cc:136-155),
starting from an empty Calculation and an empty Env.  The
`assert(op_count < valid_names.size())` is modelled by returning `none`
when the precondition fails. -/
def valid_calculation (op_count depth : Nat) : Option (Result Calculation) :=
  if op_count < valid_names.length then
    some ((calc_loop depth (Result.single ([], []))
      (valid_names.take op_count)).map Prod.fst)
  else
    none

end progspace

namespace progspace

open bfs

/-- Model of `progspace::CSData` (infix_test.cc:157-184): a candidate
rendering as a rope, plus the derived flag recording whether any rendered
tuple in it omitted its parentheses. -/
structure CSData where
  str : CatString
  tuple_parens_omitted : Bool

/-- Model of `CSData::parens_omitted` (infix_test.cc:172-175). -/
def CSData.parens_omitted (d : CSData) : CSData :=
  { str := d.str, tuple_parens_omitted := true }

/-- Model of `CSData::concat` (infix_test.cc:177-183): rope concatenation,
or-ing the omitted-parens flags. -/
def CSData.concat (d other : CSData) : CSData :=
  { str := d.str.concat other.str,
    tuple_parens_omitted := d.tuple_parens_omitted || other.tuple_parens_omitted }

/-- Model of `progspace::CS = bfs::Result<CSData>` (infix_test.cc:186). -/
abbrev CS := Result CSData

/-- A one-candidate stream from a `string_view` literal, modelling
`CS{"..."sv}` via the `CSData(std::string_view)` constructor
(infix_test.cc:162). -/
def csView (s : String) : CS := Result.single ⟨CatString.view s, false⟩

/-- A one-candidate stream from an owned `std::string`, modelling
`CS{std::string(...)}` via the `CSData(std::string)` constructor
(infix_test.cc:164). -/
def csOwned (s : String) : CS := Result.single ⟨CatString.owned s, false⟩

/-- Model of `progspace::cat_cs` (infix_test.cc:188-194): the lazy cross
product of two candidate streams under `CSData::concat`. -/
def cat_cs (lhs rhs : CS) : CS :=
  lhs.flatMap (fun pre => rhs.map (fun suf => pre.concat suf))

/-- Model of `progspace::cat_css` (infix_test.cc:196-204): fold `cat_cs`
over a list of candidate streams, starting from the empty string. -/
def cat_css (css : List CS) : CS := css.foldl cat_cs (csView "")

/-- Model of `progspace::GroupPrecedence` (infix_test.cc:206-219): the
current precedence level (default -4, the root context) and whether
associative chaining is allowed here (default false). -/
structure GroupPrecedence where
  curr_precedence : Int := -4
  allow_assoc : Bool := false

/-- Model of `GroupPrecedence::with_precedence` (infix_test.cc:211-214). -/
def GroupPrecedence.with_precedence (p : GroupPrecedence) (precedence : Int) :
    GroupPrecedence :=
  { curr_precedence := precedence, allow_assoc := p.allow_assoc }

/-- Model of `GroupPrecedence::with_assoc` (infix_test.cc:216-219). -/
def GroupPrecedence.with_assoc (p : GroupPrecedence) (allow_assoc_ : Bool) :
    GroupPrecedence :=
  { curr_precedence := p.curr_precedence, allow_assoc := allow_assoc_ }

/-- Model of `GroupPrecedence::wrap_group` (infix_test.cc:221-241): the
parenthesized variant renders its contents at the default-constructed
`GroupPrecedence{}`; when the operator binds strictly tighter than the
context (or as tight, with associative chaining allowed) the
unparenthesized variant at the operator's own precedence is emitted first,
followed by the parenthesized one. -/
def GroupPrecedence.wrap_group (ctx : GroupPrecedence) (precedence : Int)
    (fn : GroupPrecedence → CS) : CS :=
  let grouped := cat_css [csView "(", fn {}, csView ")"]
  if (precedence ≥ ctx.curr_precedence ∧ ctx.allow_assoc = true) ∨
      precedence > ctx.curr_precedence then
    (fn ((ctx.with_precedence precedence).with_assoc false)).concat grouped
  else
    grouped

mutual

/-- Model of `progspace::expression_strings` (infix_test.cc:244-372): all
surface renderings of an expression in a given precedence context.  The
`Expression` and `Ref` unwrapping of the source is built into the `Expr`
representation; each binary-operator arm inlines the source's
`binop_wrap_precedence` lambda at its level, and the Tuple/Append arms
inline the source's `comma_sep_children` lambda (whose per-flag
recomputation of the same pure value is hoisted into one `let`). -/
def expression_strings (precedence : GroupPrecedence) (expression : Expr) :
    CS :=
  match expression with
  | .lit text => csOwned text
  | .ref name => csOwned name
  | .add lhs rhs =>
    precedence.wrap_group (-2) (fun precedence =>
      cat_css [
        expression_strings (precedence.with_assoc true) lhs,
        csOwned (" " ++ "+" ++ " "),
        expression_strings (precedence.with_assoc false) rhs])
  | .sub lhs rhs =>
    precedence.wrap_group (-2) (fun precedence =>
      cat_css [
        expression_strings (precedence.with_assoc true) lhs,
        csOwned (" " ++ "-" ++ " "),
        expression_strings (precedence.with_assoc false) rhs])
  | .mul lhs rhs =>
    precedence.wrap_group (-1) (fun precedence =>
      cat_css [
        expression_strings (precedence.with_assoc true) lhs,
        csOwned (" " ++ "*" ++ " "),
        expression_strings (precedence.with_assoc false) rhs])
  | .div lhs rhs =>
    precedence.wrap_group (-1) (fun precedence =>
      cat_css [
        expression_strings (precedence.with_assoc true) lhs,
        csOwned (" " ++ "/" ++ " "),
        expression_strings (precedence.with_assoc false) rhs])
  | .tupleIdx lhs rhs =>
    precedence.wrap_group 0 (fun precedence =>
      cat_css [
        expression_strings (precedence.with_assoc true) lhs,
        csOwned (" " ++ "." ++ " "),
        expression_strings (precedence.with_assoc false) rhs])
  | .tuple children =>
    let commaed :=
      let result :=
        comma_sep_loop ((precedence.with_precedence (-3)).with_assoc false)
          true (csView "") children
      if children.length < 2 then
        cat_cs result (csView ",")
      else
        result.concatF (fun _ => cat_cs result (csView ","))
    let parens_omitted : Result Bool :=
      if children.length > 1 ∧
          ((-3 ≥ precedence.curr_precedence ∧ precedence.allow_assoc = true) ∨
            (-3 > precedence.curr_precedence)) then
        (Result.single true).concat (Result.single false)
      else
        Result.single false
    parens_omitted.flatMap (fun omitted =>
      if omitted then
        commaed.map (fun result => result.parens_omitted)
      else
        cat_css [csView "(", commaed, csView ")"])
  | .append children =>
    let commaed :=
      let result :=
        comma_sep_loop ((precedence.with_precedence (-3)).with_assoc false)
          true (csView "") children
      if children.length < 2 then
        cat_cs result (csView ",")
      else
        result.concatF (fun _ => cat_cs result (csView ","))
    cat_css [csView "append(", commaed, csView ")"]
termination_by structural expression

/-- The `for (auto child : *expression)` loop of the `comma_sep_children`
lambda of `expression_strings` (infix_test.cc:296-311); the lambda's
trailing-comma logic (infix_test.cc:313-323) is inlined at its two use
sites in the Tuple and Append arms above. -/
def comma_sep_loop (precedence : GroupPrecedence) (first : Bool) (acc : CS) :
    ExprList → CS
  | .nil => acc
  | .cons child rest =>
    let acc := if first then acc else cat_cs acc (csView ", ")
    comma_sep_loop precedence false
      (cat_cs acc (expression_strings precedence child)) rest
termination_by structural children => children

end

/-- Model of `progspace::assign_strings` (infix_test.cc:374-387). -/
def assign_strings (assign : AssignT) : CS :=
  cat_css [
    csOwned assign.name,
    csView " = ",
    expression_strings {} assign.value,
    csView ";"]

/-- Model of `progspace::calculation_strings` (infix_test.cc:389-399). -/
def calculation_strings (calculation : Calculation) : CS :=
  calculation.foldl (fun result child => cat_cs result (assign_strings child))
    (csView "")

end progspace

namespace progspace

open bfs

/-- Model of the anonymous-namespace `contains_tuple_ops`
(infix_test.cc:402-407) at the expression level: the node is itself a
Tuple, Append or TupleIdx, or any of its children recursively is.  A
Tuple/Append node satisfies the first disjunct outright, so its children
need not be visited; literals and references have no relevant children. -/
def contains_tuple_ops : Expr → Bool
  | .lit _ => false
  | .ref _ => false
  | .tuple _ => true
  | .append _ => true
  | .tupleIdx _ _ => true
  | .add lhs rhs => contains_tuple_ops lhs || contains_tuple_ops rhs
  | .sub lhs rhs => contains_tuple_ops lhs || contains_tuple_ops rhs
  | .mul lhs rhs => contains_tuple_ops lhs || contains_tuple_ops rhs
  | .div lhs rhs => contains_tuple_ops lhs || contains_tuple_ops rhs

/-- `contains_tuple_ops` applied to a whole Calculation
(infix_test.cc:749): the Calculation and Assign/Ident wrapper nodes are
never tuple operations themselves, so the traversal reduces to checking
each assignment's expression. -/
def calculation_contains_tuple_ops (calculation : Calculation) : Bool :=
  calculation.any (fun assign => contains_tuple_ops assign.value)

/-- The two configuration flags of `infix::Config` consumed by the
`bfs_test` oracle (infix_test.cc:771-777): `enable_tuples` and
`tuples_require_parens`. -/
structure Config where
  enable_tuples : Bool
  tuples_require_parens : Bool

/-- Model of the `expect_failure` computation of the `bfs_test` driver
(infix_test.cc:770-781): failure is predicted when tuples are disabled and
the tree contains a tuple operation, or when tuple parens are mandatory
and this candidate's omitted-parens flag is set. -/
def expect_failure (cfg : Config) (calculation : Calculation)
    (tuple_parens_omitted : Bool) : Bool :=
  (!cfg.enable_tuples && calculation_contains_tuple_ops calculation) ||
    (cfg.tuples_require_parens && tuple_parens_omitted)

/-- Model of the round-trip comparison of the `bfs_test` driver
(infix_test.cc:783-826), as a function of the observations made there:
whether the reparse succeeded (`result.ok`), whether
`prog->equals(result.ast)` held, and whether `result.ast->str()` equalled
`prog->str()`.  Returns the final `ok` flag; `false` means the run is
reported and aborted. -/
def bfs_check (expect_failure parse_ok ast_equals str_eq : Bool) : Bool :=
  let ok := true
  let ok :=
    if !parse_ok && !expect_failure then false
    else if parse_ok && expect_failure then
      if ast_equals then false else ok
    else ok
  let ok := if !str_eq && !expect_failure then false else ok
  ok

/-- Outcome of running the external canonical writer (`infix::writer`
piped from `Top << calculation`, infix_test.cc:723-725) on one tree:
whether the pipeline succeeded, and the text it wrote to `./infix`. -/
structure WriterResult where
  ok : Bool
  out : String

/-- Model of the body of the driver's `flat_map` building
`valid_calc_str_pairs` for one generated calculation
(infix_test.cc:717-745), parameterized by the external canonical writer's
behaviour: the test renderer's candidates are followed (by deferred
concatenation) by one extra candidate holding the writer's output with the
omitted-parens flag false, and each candidate is paired with (a clone of)
the calculation.  The `std::exit(1)` taken when the writer pipeline fails
is modelled as `none`. -/
def calc_str_pairs (writer : Calculation → WriterResult)
    (calculation : Calculation) : Option (Result (Calculation × CSData)) :=
  if (writer calculation).ok then
    some
      (((calculation_strings calculation).concatF (fun _ =>
          Result.single ⟨CatString.owned (writer calculation).out, false⟩)).map
        (fun csdata => (calculation, csdata)))
  else
    none

/-- Specification-side predicate: the node is one of the tuple operations
(Tuple, Append, TupleIdx). -/
def isTupleOpNode : Expr → Bool
  | .tuple _ => true
  | .append _ => true
  | .tupleIdx _ _ => true
  | _ => false

mutual

/-- Specification-side subterm enumeration: an expression node together
with all its descendants, at any depth. -/
def subExprs : Expr → List Expr
  | .lit text => [.lit text]
  | .ref name => [.ref name]
  | .tuple children => .tuple children :: subExprsList children
  | .append children => .append children :: subExprsList children
  | .add lhs rhs => .add lhs rhs :: (subExprs lhs ++ subExprs rhs)
  | .sub lhs rhs => .sub lhs rhs :: (subExprs lhs ++ subExprs rhs)
  | .mul lhs rhs => .mul lhs rhs :: (subExprs lhs ++ subExprs rhs)
  | .div lhs rhs => .div lhs rhs :: (subExprs lhs ++ subExprs rhs)
  | .tupleIdx lhs rhs => .tupleIdx lhs rhs :: (subExprs lhs ++ subExprs rhs)
termination_by structural e => e

/-- Subterm enumeration over a child list. -/
def subExprsList : ExprList → List Expr
  | .nil => []
  | .cons head tail => subExprs head ++ subExprsList tail
termination_by structural es => es

end

mutual

/-- Whether an expression contains a `Reference` node anywhere. -/
def hasRef : Expr → Bool
  | .lit _ => false
  | .ref _ => true
  | .tuple children => hasRefList children
  | .append children => hasRefList children
  | .add lhs rhs => hasRef lhs || hasRef rhs
  | .sub lhs rhs => hasRef lhs || hasRef rhs
  | .mul lhs rhs => hasRef lhs || hasRef rhs
  | .div lhs rhs => hasRef lhs || hasRef rhs
  | .tupleIdx lhs rhs => hasRef lhs || hasRef rhs
termination_by structural e => e

/-- Whether any expression in a child list contains a `Reference` node. -/
def hasRefList : ExprList → Bool
  | .nil => false
  | .cons head tail => hasRef head || hasRefList tail
termination_by structural es => es

end

end progspace

namespace progspace

open bfs

/-- The recursive `contains_tuple_ops` traversal agrees with the flat
specification "some subterm, at any depth, is a Tuple, Append or TupleIdx
node". -/
theorem contains_tuple_ops_eq (e : Expr) :
    contains_tuple_ops e = (subExprs e).any isTupleOpNode := by
  match e with
  | .lit text => rfl
  | .ref name => rfl
  | .tuple children => rfl
  | .append children => rfl
  | .tupleIdx lhs rhs => rfl
  | .add lhs rhs =>
    have hl := contains_tuple_ops_eq lhs
    have hr := contains_tuple_ops_eq rhs
    simp [contains_tuple_ops, subExprs, isTupleOpNode, List.any_append, hl, hr]
  | .sub lhs rhs =>
    have hl := contains_tuple_ops_eq lhs
    have hr := contains_tuple_ops_eq rhs
    simp [contains_tuple_ops, subExprs, isTupleOpNode, List.any_append, hl, hr]
  | .mul lhs rhs =>
    have hl := contains_tuple_ops_eq lhs
    have hr := contains_tuple_ops_eq rhs
    simp [contains_tuple_ops, subExprs, isTupleOpNode, List.any_append, hl, hr]
  | .div lhs rhs =>
    have hl := contains_tuple_ops_eq lhs
    have hr := contains_tuple_ops_eq rhs
    simp [contains_tuple_ops, subExprs, isTupleOpNode, List.any_append, hl, hr]

/-- Every assignment generated by `valid_assignment` binds the requested
name. -/
theorem valid_assignment_name (env : Env) (name : String) (depth : Nat) :
    ∀ a ∈ (valid_assignment env name depth).toList, a.name = name := by
  intro a ha
  rw [valid_assignment, Result.toList_flatMap] at ha
  simp only [List.mem_flatMap, Result.toList_single, List.mem_singleton] at ha
  obtain ⟨v, hv, rfl⟩ := ha
  rfl

/-- Invariant of the `valid_calculation` loop: if every pending
(Calculation, Env) pair binds exactly the names `base`, in order, then
after folding over `names`, every pair binds exactly `base ++ names`. -/
theorem calc_loop_names (depth : Nat) (names : List String)
    (assigns : Result (Calculation × Env)) (base : List String)
    (h : ∀ p ∈ assigns.toList, p.1.map AssignT.name = base) :
    ∀ p ∈ (calc_loop depth assigns names).toList,
      p.1.map AssignT.name = base ++ names := by
  induction names generalizing assigns base with
  | nil => intro p hp; simpa using h p hp
  | cons name rest ih =>
    intro p hp
    rw [calc_loop] at hp
    have inner : ∀ q ∈ (assigns.flatMap (fun pair =>
        (valid_assignment pair.2 name depth).map
          (fun assign => (pair.1 ++ [assign], pair.2)))).toList,
        q.1.map AssignT.name = base ++ [name] := by
      intro q hq
      rw [Result.toList_flatMap] at hq
      simp only [List.mem_flatMap] at hq
      obtain ⟨pair, hpair, hq⟩ := hq
      rw [Result.toList_map] at hq
      simp only [List.mem_map] at hq
      obtain ⟨assign, hassign, rfl⟩ := hq
      simp [h pair hpair, valid_assignment_name _ _ _ assign hassign]
    have := ih _ _ inner p hp
    simpa [List.append_assoc] using this

end progspace

open bfs progspace

/-- Concrete inputs used by the claim theorems below: the tree of
`progspace_test.cc` string_tests[0] (`foo = Add(0, Add(1, 2))`). -/
def addRightTree : Calculation :=
  [⟨"foo", .add (.lit "0") (.add (.lit "1") (.lit "2"))⟩]

/-- The tree of `progspace_test.cc` string_tests[2]
(`foo = Tuple(1, 2, 3)`). -/
def tupleThreeTree : Calculation :=
  [⟨"foo", .tuple (.cons (.lit "1") (.cons (.lit "2") (.cons (.lit "3") .nil)))⟩]

/-- A one-assignment calculation whose only rendering is "foo = 0;". -/
def oneLitCalc : Calculation := [⟨"foo", .lit "0"⟩]

/-- A stub canonical writer that succeeds with a fixed output. -/
def writerStub : Calculation → WriterResult := fun _ => ⟨true, "WRITER"⟩

/-- C1: evaluating `valid_calculation` at op_count 2, depth 0 (the smallest
input with a second assignment slot), the enumeration succeeds and no
generated Calculation contains any Reference node anywhere: the Env carried
through the loop is never extended with the assigned name, so the second
slot ("bar") is enumerated with the empty scope and no `Reference("foo")`
candidate ever appears, contrary to the claim. -/
theorem thmC1_no_references :
    ((valid_calculation 2 0).map (fun r =>
      r.toList.all (fun c => c.all (fun a => !hasRef a.value)))) = some true := by
  decide

/-- C6: under an expected-failure condition, the round-trip comparison of
the bfs_test driver rejects exactly the runs where the reparse succeeded
and reproduced the original tree exactly; in particular the
string-mismatch observation is ignored, and a parse error or a
structurally different reparse both satisfy the expectation. -/
theorem thmC6_expected_failure_check :
    ∀ parse_ok ast_equals str_eq : Bool,
      bfs_check true parse_ok ast_equals str_eq = !(parse_ok && ast_equals) := by
  decide

/-- C9: materializing the concatenation of two ropes yields exactly the
concatenation of their materializations; in particular materializing the
concatenation of two leaf ropes yields the concatenation of their
strings. -/
theorem thmC9_rope_concat_law :
    (∀ a b : CatString, (a.concat b).str = a.str ++ b.str) ∧
    (∀ s1 s2 : String,
      ((CatString.owned s1).concat (CatString.owned s2)).str = s1 ++ s2) := by
  constructor
  · intro a b
    simp [catString_str_eq_flatten, CatString.concat, CatString.flatten]
  · intro s1 s2
    simp [catString_str_eq_flatten, CatString.concat, CatString.flatten]

/-- C7: `flat_map` produces the empty stream when every element maps to an
empty sub-stream; otherwise, splitting the input traversal around the
earliest element `x` whose image is non-empty, the output traversal is
exactly the traversal of `f x` followed by the flat_map of the portion of
the input strictly after `x`. -/
theorem thmC7_flatMap_first_match {T U : Type}
    (s : Result T) (f : T → Result U) :
    ((∀ x ∈ s.toList, (f x).toList = []) → (s.flatMap f).toList = []) ∧
    (∀ pre x post, s.toList = pre ++ x :: post →
      (∀ a ∈ pre, (f a).toList = []) → (f x).toList ≠ [] →
      (s.flatMap f).toList =
        (f x).toList ++ post.flatMap (fun t => (f t).toList)) := by
  have all_nil : ∀ l : List T, (∀ x ∈ l, (f x).toList = []) →
      l.flatMap (fun t => (f t).toList) = [] := by
    intro l
    induction l with
    | nil => intro _; rfl
    | cons a t ih =>
      intro h
      rw [List.flatMap_cons, h a (List.mem_cons_self a t),
        ih (fun x hx => h x (List.mem_cons_of_mem a hx))]
      rfl
  constructor
  · intro h
    rw [Result.toList_flatMap]
    exact all_nil s.toList h
  · intro pre x post hsplit hpre hx
    rw [Result.toList_flatMap, hsplit, List.flatMap_append, List.flatMap_cons,
      all_nil pre hpre, List.nil_append]

/-- C7 witness: applying the theorem to the concrete stream of 0, 1, 2 and
the function erasing 0 and keeping the rest. -/
theorem thmC7_witness :
    (((Result.single 0).concat
        ((Result.single 1).concat (Result.single 2))).flatMap
      (fun n => if n = 0 then Result.empty else Result.single n)).toList =
      [1, 2] :=
  ((thmC7_flatMap_first_match
      ((Result.single 0).concat ((Result.single 1).concat (Result.single 2)))
      (fun n => if n = 0 then Result.empty else Result.single n)).2
    [0] 1 [2] rfl (by decide) (by decide)).trans (by decide)

/-- C5: the bfs_test oracle predicts parse failure exactly when tuples are
disabled and some subterm of some assignment's expression, at any depth, is
a Tuple, Append or TupleIdx node, or when tuple parens are mandatory and
this candidate's omitted-parens flag is set; and when failure is not
expected, a failed parse makes the round-trip check report and abort. -/
theorem thmC5_failure_prediction (cfg : Config) (calculation : Calculation)
    (tuple_parens_omitted : Bool) :
    (expect_failure cfg calculation tuple_parens_omitted = true ↔
      ((cfg.enable_tuples = false ∧
        ∃ assign ∈ calculation, ∃ sub ∈ subExprs assign.value,
          isTupleOpNode sub = true) ∨
       (cfg.tuples_require_parens = true ∧ tuple_parens_omitted = true))) ∧
    (expect_failure cfg calculation tuple_parens_omitted = false →
      ∀ ast_equals str_eq : Bool,
        bfs_check false false ast_equals str_eq = false) := by
  constructor
  · simp only [expect_failure, Bool.or_eq_true, Bool.and_eq_true,
      Bool.not_eq_true', calculation_contains_tuple_ops, List.any_eq_true,
      contains_tuple_ops_eq]
  · intro _ ast_equals str_eq
    cases ast_equals <;> cases str_eq <;> rfl

/-- C5 witness: the prediction at a concrete configuration and candidate,
and the abort on unexpected parse failure, both from the theorem. -/
theorem thmC5_witness :
    expect_failure ⟨true, true⟩ [] true = true ∧
    bfs_check false false true true = false :=
  ⟨(thmC5_failure_prediction ⟨true, true⟩ [] true).1.mpr (Or.inr ⟨rfl, rfl⟩),
    (thmC5_failure_prediction ⟨true, false⟩ [] false).2 rfl true true⟩

/-- C4 counterexample: at depth 0 with empty scope, `valid_expression`
yields 4 candidates, not the 5 the claim states. -/
theorem thmC4_counterexample :
    ¬((valid_expression [] 0).toList.length = 5) := by decide

/-- C4 (amended): at depth 0 with empty scope, `valid_expression` yields
exactly 4 candidates: the literal 0, the literal 1, an empty Tuple and an
empty Append, in that order, with no Reference candidates. -/
theorem thmC4_depth0_empty_scope :
    (valid_expression [] 0).toList =
      [.lit "0", .lit "1", .tuple .nil, .append .nil] := rfl

/-- C8: rendering `foo = Tuple(1, 2, 3)` from the root context yields
exactly four candidates, in order: without parens (no trailing comma, then
trailing comma) and with parens (no trailing comma, then trailing comma),
and exactly the first two carry the omitted-parens flag. -/
theorem thmC8_tuple_candidates :
    (calculation_strings tupleThreeTree).toList.map
        (fun d => (d.str.str, d.tuple_parens_omitted)) =
      [("foo = 1, 2, 3;", true), ("foo = 1, 2, 3,;", true),
       ("foo = (1, 2, 3);", false), ("foo = (1, 2, 3,);", false)] := by
  simp only [catString_str_eq_flatten]
  decide

/-- C3: evaluating the renderer of infix_test.cc at the claimed tree
`foo = Add(0, Add(1, 2))` from the root context yields three candidates,
not two: `wrap_group` renders the contents of the parenthesized variant at
the default-constructed context, which re-enables the unparenthesized fork
of the inner Add and lets the extra candidate "foo = (0 + 1 + 2);" through,
contrary to the claim and to the expected output recorded in
progspace_test.cc string_tests[0]. -/
theorem thmC3_three_candidates :
    (calculation_strings addRightTree).toList.map
        (fun d => (d.str.str, d.tuple_parens_omitted)) =
      [("foo = 0 + (1 + 2);", false), ("foo = (0 + 1 + 2);", false),
       ("foo = (0 + (1 + 2));", false)] := by
  simp only [catString_str_eq_flatten]
  decide

/-- C2 (amended): for every canonical-writer behaviour and every generated
calculation, the driver's candidate-building stage aborts exactly when the
writer pipeline fails; when the writer succeeds, the stage yields the test
renderer's candidates followed by one extra candidate holding the writer's
output with the omitted-parens flag false, each paired with the tree — the
writer's output is round-trip-checked like any other candidate rather than
compared textually against the renderer's output. -/
theorem thmC2_writer_output_appended (writer : Calculation → WriterResult)
    (calculation : Calculation) :
    ((writer calculation).ok = false →
      calc_str_pairs writer calculation = none) ∧
    ((writer calculation).ok = true →
      (calc_str_pairs writer calculation).map Result.toList =
        some ((calculation_strings calculation).toList.map
            (fun d => (calculation, d)) ++
          [(calculation, ⟨CatString.owned (writer calculation).out, false⟩)])) := by
  constructor
  · intro h
    simp [calc_str_pairs, h]
  · intro h
    simp [calc_str_pairs, h, Result.toList_map, Result.toList_concatF,
      Result.toList_single]

/-- C2 witness: the stage applied to the concrete calculation `foo = 0;`
and the stub writer. -/
theorem thmC2_witness :
    (calc_str_pairs writerStub oneLitCalc).map Result.toList =
      some ((calculation_strings oneLitCalc).toList.map
          (fun d => (oneLitCalc, d)) ++
        [(oneLitCalc, ⟨CatString.owned "WRITER", false⟩)]) :=
  (thmC2_writer_output_appended writerStub oneLitCalc).2 rfl

/-- C2 counterexample: with a canonical writer that succeeds with the
output "WRITER", which is textually different from "foo = 0;", the only
candidate produced by the test renderer for `oneLitCalc`, the driver stage
does not abort: it yields both strings as candidates for the round-trip
check, so no assertion of textual identity between the renderer and the
writer takes place. -/
theorem thmC2_counterexample :
    ((calc_str_pairs writerStub oneLitCalc).map (fun s =>
        s.toList.map (fun p => (p.2.str.str, p.2.tuple_parens_omitted))) =
      some [("foo = 0;", false), ("WRITER", false)]) ∧
    "WRITER" ≠ "foo = 0;" := by
  constructor
  · simp only [catString_str_eq_flatten]
    decide
  · decide

/-- C10: `valid_calculation` succeeds exactly when op_count is strictly
below the size of the fixed name pool (foo, bar, ping, bnorg), and under
that precondition every Calculation it yields has exactly op_count Assign
children whose identifier names are the first op_count pool names in that
fixed order. -/
theorem thmC10_name_pool (op_count depth : Nat) :
    ((valid_calculation op_count depth).isSome = true ↔ op_count < 4) ∧
    (op_count < 4 →
      ∀ r, valid_calculation op_count depth = some r →
        ∀ c ∈ r.toList,
          c.map AssignT.name = valid_names.take op_count ∧
          c.length = op_count) := by
  have h4 : valid_names.length = 4 := rfl
  constructor
  · by_cases h : op_count < 4
    · simp [valid_calculation, h4, h]
    · simp [valid_calculation, h4, h]
  · intro h r hr c hc
    rw [valid_calculation] at hr
    rw [h4] at hr
    rw [if_pos h] at hr
    cases hr
    rw [Result.toList_map] at hc
    simp only [List.mem_map] at hc
    obtain ⟨pair, hpair, rfl⟩ := hc
    have hnames := calc_loop_names depth (valid_names.take op_count)
      (Result.single ([], [])) []
      (by intro p hp; simp only [Result.toList_single, List.mem_singleton] at hp
          rw [hp]; rfl)
      pair hpair
    rw [List.nil_append] at hnames
    refine ⟨hnames, ?_⟩
    have := congrArg List.length hnames
    rw [List.length_map, List.length_take, h4] at this
    omega

/-- C10 witness: at op_count 2 and depth 0 the precondition holds, the
enumeration succeeds, and every generated Calculation consists of exactly
the two assignments named foo then bar. -/
theorem thmC10_witness :
    (valid_calculation 2 0).isSome = true ∧
    (valid_calculation 2 0).map (fun r =>
        r.toList.all (fun c =>
          decide (c.map AssignT.name = ["foo", "bar"]) && (c.length == 2))) =
      some true := by
  have hsome := (thmC10_name_pool 2 0).1.mpr (by decide)
  refine ⟨hsome, ?_⟩
  obtain ⟨r, hr⟩ := Option.isSome_iff_exists.mp hsome
  rw [hr]
  rw [Option.map_some']
  congr 1
  rw [List.all_eq_true]
  intro c hc
  have h := (thmC10_name_pool 2 0).2 (by decide) r hr c hc
  rw [Bool.and_eq_true, decide_eq_true_iff, beq_iff_eq]
  exact ⟨h.1, h.2⟩
